import Mathlib

/-!
Shallow embedding of the request-signing core of the `aliyun-oss-rust-sdk`
repository (files `src/oss.rs` and `src/object.rs`), together with proofs of
the specification claims about it.

Rust strings are modelled as `List Char`.  The Rust code orders strings with
byte-wise comparison of their UTF-8 encodings; on `List Char` we use the
code-point lexicographic order, which coincides with UTF-8 byte order (UTF-8
preserves the ordering of code points).

`std::collections::HashMap` is modelled as an association list whose keys are
kept unique: `mapInsert` removes any earlier binding of the key and appends
the new one, which realises exactly the map semantics of `HashMap::insert`
(last write wins).  The arbitrary iteration order of a `HashMap` is modelled
by quantifying over permutations of the entry list where it matters
(claim C2).
-/

namespace AliyunOss

open List

/-- Rust `String` / `&str`, modelled as its list of characters. -/
abbrev Str := List Char

/-- The `OSS` struct of `src/oss.rs` (fields `key_id`, `key_secret`,
`endpoint`, `bucket`). -/
structure OSS where
  key_id : Str
  key_secret : Str
  endpoint : Str
  bucket : Str

/-- Modelled from the spec: the HTTP-method enumeration `RequestType` of the
`request` module, which is not under `src/`; the spec (§3) lists the methods,
and `strum`'s `Display` renders the variant name. -/
inductive RequestType where
  | GET
  | PUT
  | POST
  | DELETE
  | HEAD
deriving DecidableEq

/-- Modelled from the spec: the string rendering of `RequestType` produced by
the derived `Display` implementation. -/
def RequestType.toStr : RequestType → Str
  | .GET => "GET".data
  | .PUT => "PUT".data
  | .POST => "POST".data
  | .DELETE => "DELETE".data
  | .HEAD => "HEAD".data

/-- Modelled from the spec: the `RequestBuilder` of the `request` module,
which is not under `src/`.  The spec (§3, §6) gives it a method, an expiry in
seconds, caller-supplied query parameters, caller-supplied headers and an
optional content type (empty string meaning absent). -/
structure RequestBuilder where
  method : RequestType
  expire : Int
  parameters : List (Str × Str)
  headers : List (Str × Str)
  content_type : Str

/-- The sixteen upper-case hexadecimal digit characters. -/
def hexDigits : List Char := "0123456789ABCDEF".data

/-- The hexadecimal digit character for `n < 16` (a harmless default
otherwise; all call sites pass values below 16). -/
def hexDigit (n : Nat) : Char := hexDigits.getD n 'X'

/-- One percent-encoded byte, `%XX` with upper-case hex, as produced by the
`urlencoding` crate. -/
def pctByte (b : Nat) : Str := ['%', hexDigit (b / 16), hexDigit (b % 16)]

/-- The UTF-8 encoding of a character, as the list of its byte values. -/
def utf8Bytes (c : Char) : List Nat :=
  let n := c.toNat
  if n < 0x80 then [n]
  else if n < 0x800 then [0xC0 + n / 64, 0x80 + n % 64]
  else if n < 0x10000 then [0xE0 + n / 4096, 0x80 + (n / 64) % 64, 0x80 + n % 64]
  else [0xF0 + n / 262144, 0x80 + (n / 4096) % 64, 0x80 + (n / 64) % 64, 0x80 + n % 64]

/-- The characters the `urlencoding` crate leaves unencoded:
`A-Z a-z 0-9 - _ . ~`. -/
def isUnreservedChar (c : Char) : Bool :=
  (('A' ≤ c && c ≤ 'Z') || ('a' ≤ c && c ≤ 'z') || ('0' ≤ c && c ≤ '9')
    || c == '-' || c == '_' || c == '.' || c == '~')

/-- Percent-encoding of a single character: kept verbatim when unreserved,
otherwise each UTF-8 byte becomes `%XX`. -/
def urlencodeChar (c : Char) : Str :=
  if isUnreservedChar c then [c] else ((utf8Bytes c).map pctByte).flatten

/-- `urlencoding::encode`: percent-encode every reserved character of a
string. -/
def urlencode (s : Str) : Str := (s.map urlencodeChar).flatten

/-- Rust's `Vec::join(sep)` for a one-character separator. -/
def joinSep (sep : Char) : List Str → Str
  | [] => []
  | [s] => s
  | s :: ss => s ++ sep :: joinSep sep ss

/-- `API::format_key` (src/oss.rs:37-44): prepend `/` unless the key already
starts with `/`. -/
def format_key (key : Str) : Str :=
  if "/".data.isPrefixOf key then key else '/' :: key

/-- `API::key_urlencode` (src/oss.rs:28-35): split the key on `/`,
percent-encode each segment, re-join with `/`. -/
def key_urlencode (key : Str) : Str :=
  joinSep '/' ((key.splitOn '/').map urlencode)

/-- `API::format_oss_resource_str` (src/oss.rs:147-154). -/
def format_oss_resource_str (bucket key : Str) : Str :=
  if bucket = [] then '/' :: bucket else '/' :: bucket ++ key

/-- `HashMap::insert` on an association list with unique keys: drop any
earlier binding of `k`, append `(k, v)`. -/
def mapInsert (k v : Str) (m : List (Str × Str)) : List (Str × Str) :=
  m.filter (fun p => decide (p.1 ≠ k)) ++ [(k, v)]

/-- Map lookup on an association list (the value of the first pair whose key
matches). -/
def getParam (k : Str) : List (Str × Str) → Option Str
  | [] => none
  | p :: ps => if p.1 = k then some p.2 else getParam k ps

/-- Comparison of parameter pairs by name, the order used by
`params.sort_by(|a, b| a.0.cmp(&b.0))` (src/oss.rs:138). -/
def keyLE (a b : Str × Str) : Prop := a.1 ≤ b.1

/-- Strict version of `keyLE`. -/
def keyLT (a b : Str × Str) : Prop := a.1 < b.1

instance : DecidableRel keyLE := fun a b => (inferInstance : Decidable (a.1 ≤ b.1))

instance : DecidableRel keyLT := fun a b => (inferInstance : Decidable (a.1 < b.1))

instance : IsTotal (Str × Str) keyLE := ⟨fun a b => le_total a.1 b.1⟩

instance : IsTrans (Str × Str) keyLE := ⟨fun _ _ _ h1 h2 => le_trans h1 h2⟩

instance : IsAntisymm (Str × Str) keyLT :=
  ⟨fun a b h1 h2 => (lt_asymm (show a.1 < b.1 from h1) (show b.1 < a.1 from h2)).elim⟩

/-- `params.sort_by(|a, b| a.0.cmp(&b.0))`: sort the parameter pairs by name
ascending.  (Any comparison sort agrees with insertion sort on lists whose
keys are distinct, which is the case at the call site.) -/
def sortPairs (l : List (Str × Str)) : List (Str × Str) := List.insertionSort keyLE l

/-- `format!("{}={}", k, v)` joined with `&` (src/oss.rs:143). -/
def serializeParams (ps : List (Str × Str)) : Str :=
  joinSep '&' (ps.map (fun p => p.1 ++ '=' :: p.2))

/-- Decimal digits of a natural number, accumulator/fuel style (mirrors the
formatting done by Rust's `to_string`). -/
def natToStrGo : Nat → Nat → Str → Str
  | 0, _, acc => acc
  | fuel + 1, n, acc =>
    let d := hexDigit (n % 10)
    if n < 10 then d :: acc else natToStrGo fuel (n / 10) (d :: acc)

/-- Decimal rendering of a natural number. -/
def natToStr (n : Nat) : Str := natToStrGo (n + 1) n []

/-- Decimal rendering of an `i64`, as produced by `to_string()`. -/
def intToStr (i : Int) : Str :=
  if i < 0 then '-' :: natToStr (-i).toNat else natToStr i.toNat

/-- `chrono::Local::now().naive_local().timestamp()`: the naive local
date-time is the real (UTC) Unix time shifted by the local UTC offset, and
`NaiveDateTime::timestamp` reads the naive value as if it were UTC.  The
embedding therefore passes the clock in as the pair
(`nowUtc` = real Unix time, `tzOffset` = local UTC offset in seconds). -/
def naiveLocalTimestamp (nowUtc tzOffset : Int) : Int := nowUtc + tzOffset

/-- The expiration timestamp computed by `sign_url` (src/oss.rs:116):
`Local::now().naive_local() + Duration::seconds(build.expire)`, then
`.timestamp()`. -/
def urlExpiresTs (build : RequestBuilder) (nowUtc tzOffset : Int) : Int :=
  naiveLocalTimestamp nowUtc tzOffset + build.expire

/-- Modelled from the spec: the canonical signable string assembled by
`auth::AuthAPI::sign` (the `auth` module is not under `src/`).  Spec §4.1:
`METHOD\n + Content-MD5\n + Content-Type\n + Date-or-Expires\n +
canonicalized-x-oss-headers + canonicalized-resource`. -/
def canonicalString (method contentMd5 contentType date ossHeaderLines resource : Str) : Str :=
  method ++ '\n' :: (contentMd5 ++ '\n' :: (contentType ++ '\n' ::
    (date ++ '\n' :: (ossHeaderLines ++ resource))))

/-- Modelled from the spec: the `name:value\n` lines of the signable
`x-oss-*` headers, in ascending name order (spec §4.1). -/
def ossHeaderLines (headers : List (Str × Str)) : Str :=
  ((sortPairs (headers.filter (fun p => "x-oss-".data.isPrefixOf p.1))).map
    (fun p => p.1 ++ ':' :: p.2 ++ ['\n'])).flatten

/-- The canonical string that `sign_url` feeds to the signer: the Date slot
holds the expiration timestamp, and the resource is
`format_oss_resource_str(bucket, formatted key)`. -/
def signUrlCanonical (oss : OSS) (key : Str) (build : RequestBuilder)
    (nowUtc tzOffset : Int) : Str :=
  canonicalString build.method.toStr [] build.content_type
    (intToStr (urlExpiresTs build nowUtc tzOffset))
    (ossHeaderLines build.headers)
    (format_oss_resource_str oss.bucket (format_key key))

/-- The query-parameter name `Expires`. -/
def expiresKey : Str := "Expires".data

/-- The query-parameter name `OSSAccessKeyId`. -/
def accessIdKey : Str := "OSSAccessKeyId".data

/-- The query-parameter name `Signature`. -/
def signatureKey : Str := "Signature".data

/-- The denylisted query-parameter name `x-oss-ac-source-ip`
(src/oss.rs:135). -/
def denyKey : Str := "x-oss-ac-source-ip".data

/-- One step of the caller-parameter loop (src/oss.rs:129-131):
`query_parameters.insert(k.to_string(), urlencoding::encode(v))`. -/
def insStep (m : List (Str × Str)) (p : Str × Str) : List (Str × Str) :=
  mapInsert p.1 (urlencode p.2) m

/-- The `query_parameters` map right after the three reserved insertions
(src/oss.rs:125-128): `Expires`, `OSSAccessKeyId` and the percent-encoded
signature.  `mac` is the keyed-hash primitive of the `auth` module
(HMAC-SHA1 then base64), taken as a parameter of the embedding. -/
def signUrlBase (mac : Str → Str → Str) (oss : OSS) (key : Str)
    (build : RequestBuilder) (nowUtc tzOffset : Int) : List (Str × Str) :=
  mapInsert signatureKey
    (urlencode (mac oss.key_secret (signUrlCanonical oss key build nowUtc tzOffset)))
    (mapInsert accessIdKey oss.key_id
      (mapInsert expiresKey (intToStr (urlExpiresTs build nowUtc tzOffset)) []))

/-- The full contents of the `query_parameters` `HashMap` built by `sign_url`
(src/oss.rs:125-131): the three reserved entries, then every caller parameter
(value percent-encoded) inserted on top, overwriting on name collision. -/
def signUrlEntries (mac : Str → Str → Str) (oss : OSS) (key : Str)
    (build : RequestBuilder) (nowUtc tzOffset : Int) : List (Str × Str) :=
  build.parameters.foldl insStep (signUrlBase mac oss key build nowUtc tzOffset)

/-- The tail of `sign_url` applied to one iteration order `iter` of the
`query_parameters` map: filter out the denylisted name, sort by name, render
`encoded_path?name=value&...` (src/oss.rs:133-144). -/
def signUrlOfIter (fkey : Str) (iter : List (Str × Str)) : Str :=
  key_urlencode fkey ++ '?' ::
    serializeParams (sortPairs (iter.filter (fun p => decide (p.1 ≠ denyKey))))

/-- The final, sorted query-parameter list of `sign_url`. -/
def signUrlParams (mac : Str → Str → Str) (oss : OSS) (key : Str)
    (build : RequestBuilder) (nowUtc tzOffset : Int) : List (Str × Str) :=
  sortPairs ((signUrlEntries mac oss key build nowUtc tzOffset).filter
    (fun p => decide (p.1 ≠ denyKey)))

/-- `API::sign_url` for `OSS` (src/oss.rs:113-145). -/
def sign_url (mac : Str → Str → Str) (oss : OSS) (key : Str)
    (build : RequestBuilder) (nowUtc tzOffset : Int) : Str :=
  signUrlOfIter (format_key key) (signUrlEntries mac oss key build nowUtc tzOffset)

/-- `OSSAPI::sign_url_with_endpoint` (src/oss.rs:65-67):
`format!("{}.{}{}", bucket, endpoint, sign_url)`. -/
def sign_url_with_endpoint (mac : Str → Str → Str) (oss : OSS) (key : Str)
    (build : RequestBuilder) (nowUtc tzOffset : Int) : Str :=
  oss.bucket ++ '.' :: oss.endpoint ++ sign_url mac oss key build nowUtc tzOffset

/-- `OSSAPI::sign_url_with_cdn` (src/oss.rs:86-90):
`format!("{}{}", cdn, sign_url)`. -/
def sign_url_with_cdn (mac : Str → Str → Str) (oss : OSS) (cdn key : Str)
    (build : RequestBuilder) (nowUtc tzOffset : Int) : Str :=
  cdn ++ sign_url mac oss key build nowUtc tzOffset

/-- Rust `str::replacen(pat, "", 1)`: remove the first occurrence of `pat`. -/
def replaceFirst (pat : Str) : Str → Str
  | [] => []
  | c :: s =>
    if pat.isPrefixOf (c :: s) then (c :: s).drop pat.length
    else c :: replaceFirst pat s

/-- `OSS::format_host` (src/oss.rs:175-191). -/
def format_host (oss : OSS) (bucket key : Str) : Str :=
  if "https".data.isPrefixOf oss.endpoint then
    "https://".data ++ bucket ++ '.' :: replaceFirst "https://".data oss.endpoint
      ++ '/' :: key
  else
    "http://".data ++ bucket ++ '.' :: replaceFirst "http://".data oss.endpoint
      ++ '/' :: key

/-- `OSS::build_request` (src/oss.rs:193-199).  The source computes the host
and the current date, but the date insertion is commented out and the
returned pair is `Ok(("".to_string(), HeaderMap::new()))`: an empty URL and
an empty header map. -/
def build_request (oss : OSS) (_method : RequestType) (key : Str)
    (_headers : List (Str × Str)) : Except Str (Str × List (Str × Str)) :=
  let _host := format_host oss oss.bucket key
  Except.ok ([], [])

/-- The Date slot of a canonical signable string: the fourth
newline-separated field (see `canonicalString`). -/
def dateSlot (cs : Str) : Str := (cs.splitOn '\n').getD 3 []

/-! ### Concrete fixtures used by witnesses and counterexamples -/

/-- A concrete stand-in for the keyed-hash primitive (its internals are
irrelevant to every claim below). -/
def mac0 : Str → Str → Str := fun _ _ => "RAWSIG".data

/-- A concrete client configuration with a scheme-less endpoint. -/
def oss0 : OSS :=
  ⟨"AK".data, "SK".data, "oss-cn-test.example.com".data, "b".data⟩

/-- A concrete client configuration whose endpoint carries an `https://`
scheme. -/
def oss1 : OSS := ⟨"AK".data, "SK".data, "https://oss.example.com".data, "b".data⟩

/-- A concrete object key. -/
def key0 : Str := "/hello.txt".data

/-- A request builder with no caller query parameters. -/
def build0 : RequestBuilder := ⟨RequestType.GET, 60, [], [], []⟩

/-- A request builder whose caller parameters collide with the reserved
`Signature` name. -/
def buildSig : RequestBuilder :=
  ⟨RequestType.GET, 60, [(signatureKey, "v".data)], [], []⟩

/-- A request builder whose caller parameters collide with the reserved
`Expires` name. -/
def buildExp : RequestBuilder :=
  ⟨RequestType.GET, 60, [(expiresKey, "0".data)], [], []⟩

/-! ### Association-list lemmas -/

theorem getParam_eq_none_of_forall {k : Str} {l : List (Str × Str)}
    (h : ∀ p ∈ l, p.1 ≠ k) : getParam k l = none := by
  induction l with
  | nil => rfl
  | cons p ps ih =>
    simp only [getParam]
    rw [if_neg (h p (List.mem_cons_self p ps))]
    exact ih fun q hq => h q (List.mem_cons_of_mem p hq)

theorem getParam_append_none {k : Str} {l1 : List (Str × Str)} (l2 : List (Str × Str))
    (h : getParam k l1 = none) : getParam k (l1 ++ l2) = getParam k l2 := by
  induction l1 with
  | nil => rfl
  | cons p ps ih =>
    simp only [getParam] at h ⊢
    by_cases hp : p.1 = k
    · rw [if_pos hp] at h; exact absurd h (by simp)
    · rw [if_neg hp] at h ⊢; exact ih h

theorem getParam_append_some {k : Str} {v : Str} {l1 : List (Str × Str)}
    (l2 : List (Str × Str)) (h : getParam k l1 = some v) :
    getParam k (l1 ++ l2) = some v := by
  induction l1 with
  | nil => exact absurd h (by simp [getParam])
  | cons p ps ih =>
    simp only [getParam] at h ⊢
    by_cases hp : p.1 = k
    · rw [if_pos hp] at h ⊢; exact h
    · rw [if_neg hp] at h ⊢; exact ih h

theorem getParam_filter_ne {k k0 : Str} (hk : k ≠ k0) (l : List (Str × Str)) :
    getParam k (l.filter (fun p => decide (p.1 ≠ k0))) = getParam k l := by
  induction l with
  | nil => rfl
  | cons p ps ih =>
    by_cases hp : p.1 = k0
    · rw [List.filter_cons_of_neg (by simp [hp])]
      simp only [getParam]
      rw [if_neg (by rw [hp]; exact fun h => hk h.symm)]
      exact ih
    · rw [List.filter_cons_of_pos (by simp [hp])]
      simp only [getParam]
      by_cases hpk : p.1 = k
      · rw [if_pos hpk, if_pos hpk]
      · rw [if_neg hpk, if_neg hpk]; exact ih

theorem getParam_mapInsert_self (k v : Str) (m : List (Str × Str)) :
    getParam k (mapInsert k v m) = some v := by
  unfold mapInsert
  rw [getParam_append_none _ (getParam_eq_none_of_forall ?_)]
  · simp [getParam]
  · intro p hp
    have := (List.mem_filter.mp hp).2
    simpa using this

theorem getParam_mapInsert_ne {k k2 : Str} (h : k2 ≠ k) (v : Str) (m : List (Str × Str)) :
    getParam k2 (mapInsert k v m) = getParam k2 m := by
  unfold mapInsert
  cases hg : getParam k2 (m.filter (fun p => decide (p.1 ≠ k))) with
  | none =>
    rw [getParam_append_none _ hg]
    rw [getParam_filter_ne h] at hg
    simp only [getParam]
    rw [if_neg (fun hh => h hh.symm)]
    exact hg.symm
  | some w =>
    rw [getParam_append_some _ hg]
    rw [getParam_filter_ne h] at hg
    exact hg.symm

theorem getParam_eq_some_mem {k v : Str} {l : List (Str × Str)}
    (h : getParam k l = some v) : (k, v) ∈ l := by
  induction l with
  | nil => exact absurd h (by simp [getParam])
  | cons p ps ih =>
    simp only [getParam] at h
    by_cases hp : p.1 = k
    · rw [if_pos hp] at h
      have hkv : (k, v) = p := by
        obtain ⟨p1, p2⟩ := p
        simp only at hp
        simp only [Option.some.injEq] at h
        rw [hp, h]
      exact List.mem_cons.mpr (Or.inl hkv)
    · rw [if_neg hp] at h
      exact List.mem_cons_of_mem p (ih h)

theorem mem_keys_iff {k : Str} {l : List (Str × Str)} :
    k ∈ l.map Prod.fst ↔ ∃ v, (k, v) ∈ l := by
  rw [List.mem_map]
  constructor
  · rintro ⟨⟨p1, p2⟩, hp, rfl⟩
    exact ⟨p2, hp⟩
  · rintro ⟨v, hv⟩
    exact ⟨(k, v), hv, rfl⟩

theorem getParam_eq_none_iff {k : Str} {l : List (Str × Str)} :
    getParam k l = none ↔ k ∉ l.map Prod.fst := by
  induction l with
  | nil => simp [getParam]
  | cons p ps ih =>
    simp only [getParam, List.map_cons, List.mem_cons]
    by_cases hp : p.1 = k
    · rw [if_pos hp]
      simp [hp]
    · rw [if_neg hp, ih]
      constructor
      · rintro h (h1 | h2)
        · exact hp h1.symm
        · exact h h2
      · exact fun h h2 => h (Or.inr h2)

theorem getParam_of_mem_nodup {k v : Str} {l : List (Str × Str)}
    (hn : (l.map Prod.fst).Nodup) (hm : (k, v) ∈ l) : getParam k l = some v := by
  revert hn
  induction hm with
  | head ps =>
    intro _
    simp [getParam]
  | tail b hb ih =>
    intro hn
    simp only [List.map_cons, List.nodup_cons] at hn
    simp only [getParam]
    by_cases hp : b.1 = k
    · exact absurd (hp ▸ mem_keys_iff.mpr ⟨v, hb⟩) hn.1
    · rw [if_neg hp]
      exact ih hn.2

theorem getParam_perm {k : Str} {l1 l2 : List (Str × Str)}
    (hn : (l1.map Prod.fst).Nodup) (hp : l1.Perm l2) :
    getParam k l2 = getParam k l1 := by
  cases hg : getParam k l1 with
  | none =>
    rw [getParam_eq_none_iff] at hg ⊢
    exact fun hk => hg ((hp.map Prod.fst).mem_iff.mpr hk)
  | some v =>
    have hn2 : (l2.map Prod.fst).Nodup := ((hp.map Prod.fst).nodup_iff).mp hn
    exact getParam_of_mem_nodup hn2 (hp.mem_iff.mp (getParam_eq_some_mem hg))

theorem mem_keys_mapInsert {k2 k v : Str} {m : List (Str × Str)} :
    k2 ∈ (mapInsert k v m).map Prod.fst ↔ k2 = k ∨ k2 ∈ m.map Prod.fst := by
  unfold mapInsert
  rw [List.map_append, List.mem_append]
  constructor
  · rintro (h | h)
    · right
      obtain ⟨p, hp, hpk⟩ := List.mem_map.mp h
      exact List.mem_map.mpr ⟨p, (List.mem_filter.mp hp).1, hpk⟩
    · left; simpa using h
  · rintro (rfl | h)
    · right; simp
    · by_cases hk : k2 = k
      · right; simp [hk]
      · left
        obtain ⟨p, hp, hpk⟩ := List.mem_map.mp h
        refine List.mem_map.mpr ⟨p, List.mem_filter.mpr ⟨hp, ?_⟩, hpk⟩
        simp [hpk, hk]

theorem nodup_keys_mapInsert {m : List (Str × Str)} (k v : Str)
    (hn : (m.map Prod.fst).Nodup) : ((mapInsert k v m).map Prod.fst).Nodup := by
  unfold mapInsert
  rw [List.map_append, List.nodup_append]
  refine ⟨((List.filter_sublist m).map Prod.fst).nodup hn, by simp, ?_⟩
  intro x hx hx2
  obtain ⟨p, hp, hpk⟩ := List.mem_map.mp hx
  have hne : p.1 ≠ k := by simpa using (List.mem_filter.mp hp).2
  simp only [List.map_cons, List.map_nil, List.mem_singleton] at hx2
  exact hne (hpk.trans hx2)

/-! ### The caller-parameter insertion loop (src/oss.rs:129-131) -/

theorem nodup_keys_foldl {ps : List (Str × Str)} :
    ∀ {m : List (Str × Str)}, (m.map Prod.fst).Nodup →
      ((ps.foldl insStep m).map Prod.fst).Nodup := by
  induction ps with
  | nil => exact fun h => h
  | cons p ps ih =>
    intro m hm
    exact ih (nodup_keys_mapInsert p.1 (urlencode p.2) hm)

theorem mem_keys_foldl {k : Str} {ps : List (Str × Str)} :
    ∀ {m : List (Str × Str)},
      (k ∈ (ps.foldl insStep m).map Prod.fst ↔
        k ∈ m.map Prod.fst ∨ k ∈ ps.map Prod.fst) := by
  induction ps with
  | nil => simp
  | cons p ps ih =>
    intro m
    rw [List.foldl_cons, ih]
    unfold insStep
    rw [mem_keys_mapInsert]
    simp only [List.map_cons, List.mem_cons]
    tauto

theorem getParam_foldl_not_mem {k : Str} {ps : List (Str × Str)}
    (hk : k ∉ ps.map Prod.fst) :
    ∀ (m : List (Str × Str)), getParam k (ps.foldl insStep m) = getParam k m := by
  induction ps with
  | nil => exact fun _ => rfl
  | cons p ps ih =>
    intro m
    simp only [List.map_cons, List.mem_cons] at hk
    push_neg at hk
    rw [List.foldl_cons, ih hk.2]
    exact getParam_mapInsert_ne hk.1 (urlencode p.2) m

theorem getParam_foldl_mem {k v : Str} {ps : List (Str × Str)}
    (hn : (ps.map Prod.fst).Nodup) (hm : (k, v) ∈ ps) :
    ∀ (m : List (Str × Str)), getParam k (ps.foldl insStep m) = some (urlencode v) := by
  induction ps with
  | nil => simp at hm
  | cons p ps ih =>
    intro m
    simp only [List.map_cons, List.nodup_cons] at hn
    rcases List.mem_cons.mp hm with hm | hm
    · have hk : k ∉ ps.map Prod.fst := by
        rw [← hm] at hn
        exact hn.1
      rw [List.foldl_cons, getParam_foldl_not_mem hk]
      rw [← hm]
      exact getParam_mapInsert_self k (urlencode v) m
    · rw [List.foldl_cons]
      exact ih hn.2 hm (insStep m p)

/-! ### Sorting lemmas -/

theorem sortPairs_perm (l : List (Str × Str)) : (sortPairs l).Perm l :=
  List.perm_insertionSort keyLE l

theorem sortPairs_sorted (l : List (Str × Str)) : List.Pairwise keyLE (sortPairs l) :=
  List.sorted_insertionSort keyLE l

theorem nodup_keys_sortPairs {l : List (Str × Str)} (hn : (l.map Prod.fst).Nodup) :
    ((sortPairs l).map Prod.fst).Nodup :=
  (((sortPairs_perm l).map Prod.fst).nodup_iff).mpr hn

theorem pairwise_keyLT_sortPairs {l : List (Str × Str)} (hn : (l.map Prod.fst).Nodup) :
    List.Pairwise keyLT (sortPairs l) := by
  have hne : List.Pairwise (fun a b : Str × Str => a.1 ≠ b.1) (sortPairs l) :=
    List.pairwise_map.mp (nodup_keys_sortPairs hn)
  exact ((sortPairs_sorted l).and hne).imp fun h => lt_of_le_of_ne h.1 h.2

theorem sortPairs_eq_of_perm {l1 l2 : List (Str × Str)} (h12 : l1.Perm l2)
    (hn : (l1.map Prod.fst).Nodup) : sortPairs l1 = sortPairs l2 := by
  have hn2 : (l2.map Prod.fst).Nodup := ((h12.map Prod.fst).nodup_iff).mp hn
  have hperm : (sortPairs l1).Perm (sortPairs l2) :=
    ((sortPairs_perm l1).trans h12).trans (sortPairs_perm l2).symm
  exact @List.eq_of_perm_of_sorted (Str × Str) keyLT _ _ _ hperm
    (pairwise_keyLT_sortPairs hn) (pairwise_keyLT_sortPairs hn2)

theorem getParam_sortPairs {l : List (Str × Str)} (hn : (l.map Prod.fst).Nodup)
    (k : Str) : getParam k (sortPairs l) = getParam k l :=
  getParam_perm hn (sortPairs_perm l).symm

/-! ### The assembled query-parameter map of `sign_url` -/

theorem signUrlBase_eq (mac : Str → Str → Str) (oss : OSS) (key : Str)
    (build : RequestBuilder) (nowUtc tzOffset : Int) :
    signUrlBase mac oss key build nowUtc tzOffset =
      [(expiresKey, intToStr (urlExpiresTs build nowUtc tzOffset)),
       (accessIdKey, oss.key_id),
       (signatureKey,
         urlencode (mac oss.key_secret (signUrlCanonical oss key build nowUtc tzOffset)))] :=
  rfl

theorem nodup_keys_signUrlBase (mac : Str → Str → Str) (oss : OSS) (key : Str)
    (build : RequestBuilder) (nowUtc tzOffset : Int) :
    ((signUrlBase mac oss key build nowUtc tzOffset).map Prod.fst).Nodup := by
  rw [signUrlBase_eq]
  simp only [List.map_cons, List.map_nil]
  decide

theorem nodup_keys_signUrlEntries (mac : Str → Str → Str) (oss : OSS) (key : Str)
    (build : RequestBuilder) (nowUtc tzOffset : Int) :
    ((signUrlEntries mac oss key build nowUtc tzOffset).map Prod.fst).Nodup :=
  nodup_keys_foldl (nodup_keys_signUrlBase mac oss key build nowUtc tzOffset)

theorem mem_keys_signUrlEntries {n : Str} (mac : Str → Str → Str) (oss : OSS) (key : Str)
    (build : RequestBuilder) (nowUtc tzOffset : Int) :
    n ∈ (signUrlEntries mac oss key build nowUtc tzOffset).map Prod.fst ↔
      n = expiresKey ∨ n = accessIdKey ∨ n = signatureKey ∨
        n ∈ build.parameters.map Prod.fst := by
  unfold signUrlEntries
  rw [mem_keys_foldl, signUrlBase_eq]
  simp only [List.map_cons, List.map_nil, List.mem_cons, List.not_mem_nil, or_false]
  tauto

theorem getParam_signUrlEntries_expires (mac : Str → Str → Str) (oss : OSS) (key : Str)
    (build : RequestBuilder) (nowUtc tzOffset : Int)
    (h : expiresKey ∉ build.parameters.map Prod.fst) :
    getParam expiresKey (signUrlEntries mac oss key build nowUtc tzOffset) =
      some (intToStr (urlExpiresTs build nowUtc tzOffset)) := by
  unfold signUrlEntries
  rw [getParam_foldl_not_mem h]
  rfl

theorem mem_keys_filter_ne {n k0 : Str} {l : List (Str × Str)} :
    n ∈ (l.filter (fun p => decide (p.1 ≠ k0))).map Prod.fst ↔
      n ∈ l.map Prod.fst ∧ n ≠ k0 := by
  constructor
  · intro h
    obtain ⟨p, hp, hpk⟩ := List.mem_map.mp h
    obtain ⟨hpl, hpd⟩ := List.mem_filter.mp hp
    refine ⟨List.mem_map.mpr ⟨p, hpl, hpk⟩, ?_⟩
    rw [← hpk]
    simpa using hpd
  · rintro ⟨h, hne⟩
    obtain ⟨p, hp, hpk⟩ := List.mem_map.mp h
    refine List.mem_map.mpr ⟨p, List.mem_filter.mpr ⟨hp, ?_⟩, hpk⟩
    simp [hpk, hne]

theorem nodup_keys_filter_deny {l : List (Str × Str)} (hn : (l.map Prod.fst).Nodup) :
    ((l.filter (fun p => decide (p.1 ≠ denyKey))).map Prod.fst).Nodup :=
  ((List.filter_sublist l).map Prod.fst).nodup hn

theorem nodup_keys_signUrlParams (mac : Str → Str → Str) (oss : OSS) (key : Str)
    (build : RequestBuilder) (nowUtc tzOffset : Int) :
    ((signUrlParams mac oss key build nowUtc tzOffset).map Prod.fst).Nodup :=
  nodup_keys_sortPairs
    (nodup_keys_filter_deny (nodup_keys_signUrlEntries mac oss key build nowUtc tzOffset))

theorem mem_keys_signUrlParams {n : Str} (mac : Str → Str → Str) (oss : OSS) (key : Str)
    (build : RequestBuilder) (nowUtc tzOffset : Int) :
    n ∈ (signUrlParams mac oss key build nowUtc tzOffset).map Prod.fst ↔
      (n = expiresKey ∨ n = accessIdKey ∨ n = signatureKey ∨
        n ∈ build.parameters.map Prod.fst) ∧ n ≠ denyKey := by
  unfold signUrlParams
  rw [((sortPairs_perm _).map Prod.fst).mem_iff, mem_keys_filter_ne,
    mem_keys_signUrlEntries]

theorem getParam_signUrlParams (mac : Str → Str → Str) (oss : OSS) (key : Str)
    (build : RequestBuilder) (nowUtc tzOffset : Int) {k : Str} (hk : k ≠ denyKey) :
    getParam k (signUrlParams mac oss key build nowUtc tzOffset) =
      getParam k (signUrlEntries mac oss key build nowUtc tzOffset) := by
  unfold signUrlParams
  rw [getParam_sortPairs
    (nodup_keys_filter_deny (nodup_keys_signUrlEntries mac oss key build nowUtc tzOffset)),
    getParam_filter_ne hk]

/-! ### Characters produced by the percent-encoder -/

theorem hexDigit_mem (n : Nat) : hexDigit n ∈ 'X' :: hexDigits := by
  unfold hexDigit
  rw [List.getD_eq_getElem?_getD]
  cases h : hexDigits[n]? with
  | none => simp
  | some c =>
    simp only [Option.getD_some]
    exact List.mem_cons_of_mem _ (List.getElem?_mem h)

theorem hexDigit_ne (n : Nat) : hexDigit n ≠ '/' ∧ hexDigit n ≠ '?' := by
  have hall : ∀ c ∈ 'X' :: hexDigits, c ≠ '/' ∧ c ≠ '?' := by decide
  exact hall _ (hexDigit_mem n)

theorem mem_pctByte {c : Char} {b : Nat} (h : c ∈ pctByte b) : c ≠ '/' ∧ c ≠ '?' := by
  unfold pctByte at h
  simp only [List.mem_cons, List.not_mem_nil, or_false] at h
  rcases h with h | h | h
  · rw [h]; decide
  · rw [h]; exact hexDigit_ne _
  · rw [h]; exact hexDigit_ne _

theorem mem_urlencodeChar {d c : Char} (h : d ∈ urlencodeChar c) : d ≠ '/' ∧ d ≠ '?' := by
  unfold urlencodeChar at h
  by_cases hc : isUnreservedChar c
  · rw [if_pos hc] at h
    simp only [List.mem_singleton] at h
    subst h
    constructor
    · intro hd; rw [hd] at hc; exact absurd hc (by decide)
    · intro hd; rw [hd] at hc; exact absurd hc (by decide)
  · rw [if_neg hc] at h
    obtain ⟨bl, hbl, hd⟩ := List.mem_flatten.mp h
    obtain ⟨b, _, hb⟩ := List.mem_map.mp hbl
    exact mem_pctByte (hb ▸ hd)

theorem mem_urlencode {d : Char} {s : Str} (h : d ∈ urlencode s) : d ≠ '/' ∧ d ≠ '?' := by
  unfold urlencode at h
  obtain ⟨bl, hbl, hd⟩ := List.mem_flatten.mp h
  obtain ⟨c, _, hc⟩ := List.mem_map.mp hbl
  exact mem_urlencodeChar (hc ▸ hd)

/-! ### Characters produced by the decimal formatter -/

theorem mem_natToStrGo : ∀ (fuel n : Nat) (acc : Str) (c : Char),
    c ∈ natToStrGo fuel n acc → c ∈ 'X' :: hexDigits ∨ c ∈ acc := by
  intro fuel
  induction fuel with
  | zero => exact fun n acc c h => Or.inr h
  | succ f ih =>
    intro n acc c h
    simp only [natToStrGo] at h
    by_cases hn : n < 10
    · rw [if_pos hn] at h
      rcases List.mem_cons.mp h with h | h
      · exact Or.inl (h ▸ hexDigit_mem _)
      · exact Or.inr h
    · rw [if_neg hn] at h
      rcases ih _ _ _ h with h | h
      · exact Or.inl h
      · rcases List.mem_cons.mp h with h | h
        · exact Or.inl (h ▸ hexDigit_mem _)
        · exact Or.inr h

theorem mem_intToStr_ne_newline {c : Char} {i : Int} (h : c ∈ intToStr i) : c ≠ '\n' := by
  have hall : ∀ x ∈ 'X' :: hexDigits, x ≠ '\n' := by decide
  have hgo : ∀ n : Nat, c ∈ natToStr n → c ≠ '\n' := by
    intro n hc
    rcases mem_natToStrGo _ _ _ _ hc with hc | hc
    · exact hall _ hc
    · simp at hc
  unfold intToStr at h
  by_cases hi : i < 0
  · rw [if_pos hi] at h
    rcases List.mem_cons.mp h with h | h
    · rw [h]; decide
    · exact hgo _ h
  · rw [if_neg hi] at h
    exact hgo _ h

/-! ### Join and split -/

theorem joinSep_eq_intercalate (sep : Char) (ls : List Str) :
    joinSep sep ls = List.intercalate [sep] ls := by
  induction ls with
  | nil => simp [joinSep, List.intercalate]
  | cons s ss ih =>
    cases ss with
    | nil => simp [joinSep, List.intercalate]
    | cons t ts =>
      simp only [joinSep] at ih ⊢
      rw [ih]
      simp [List.intercalate, List.flatten]

theorem splitOn_cons_self (t : Str) : ('/' :: t).splitOn '/' = [] :: t.splitOn '/' := by
  simp [List.splitOn, List.splitOnP_cons]

theorem splitOn_ne_nil (x : Char) (s : Str) : s.splitOn x ≠ [] :=
  List.splitOnP_ne_nil _ s

theorem splitOn_key_urlencode (k : Str) :
    (key_urlencode k).splitOn '/' = (k.splitOn '/').map urlencode := by
  unfold key_urlencode
  rw [joinSep_eq_intercalate]
  refine List.splitOn_intercalate _ '/' ?_ ?_
  · intro l hl hc
    obtain ⟨seg, _, hseg⟩ := List.mem_map.mp hl
    exact (mem_urlencode (hseg ▸ hc)).1 rfl
  · simp only [ne_eq, List.map_eq_nil_iff]
    exact splitOn_ne_nil '/' k

/-! ### `isPrefixOf` facts and `format_key` -/

theorem isPrefixOf_append_self (l1 l2 : Str) : l1.isPrefixOf (l1 ++ l2) = true := by
  induction l1 with
  | nil => simp [List.isPrefixOf]
  | cons c cs ih => simp [List.isPrefixOf]

theorem slash_isPrefixOf_iff (s : Str) :
    "/".data.isPrefixOf s = true ↔ ∃ t, s = '/' :: t := by
  cases s with
  | nil => simp [List.isPrefixOf]
  | cons c t =>
    show (('/' == c) && List.isPrefixOf [] t) = true ↔ _
    simp only [List.isPrefixOf, Bool.and_true]
    constructor
    · intro h
      exact ⟨t, by rw [(beq_iff_eq.mp h).symm]⟩
    · rintro ⟨u, hu⟩
      rw [List.cons.injEq] at hu
      rw [hu.1]
      simp

theorem format_key_head (k : Str) : ∃ t, format_key k = '/' :: t := by
  unfold format_key
  by_cases h : "/".data.isPrefixOf k
  · rw [if_pos h]
    exact (slash_isPrefixOf_iff k).mp h
  · rw [if_neg h]
    exact ⟨k, rfl⟩

theorem format_key_idem_aux (k : Str) : format_key (format_key k) = format_key k := by
  obtain ⟨t, ht⟩ := format_key_head k
  rw [ht]
  unfold format_key
  rw [if_pos ((slash_isPrefixOf_iff _).mpr ⟨t, rfl⟩)]

/-! ### `replacen(pat, "", 1)` -/

theorem replaceFirst_append (pat rest : Str) (hp : pat ≠ []) :
    replaceFirst pat (pat ++ rest) = rest := by
  cases pat with
  | nil => exact absurd rfl hp
  | cons p ps =>
    show replaceFirst (p :: ps) ((p :: ps) ++ rest) = rest
    rw [List.cons_append]
    unfold replaceFirst
    rw [← List.cons_append, if_pos (isPrefixOf_append_self (p :: ps) rest)]
    exact List.drop_left (p :: ps) rest

/-! ### The encoded path -/

theorem key_urlencode_slash_head (t : Str) : ∃ u, key_urlencode ('/' :: t) = '/' :: u := by
  unfold key_urlencode
  rw [splitOn_cons_self, List.map_cons]
  cases hcase : (t.splitOn '/').map urlencode with
  | nil => exact absurd (List.map_eq_nil_iff.mp hcase) (splitOn_ne_nil '/' t)
  | cons x xs => exact ⟨joinSep '/' (x :: xs), rfl⟩

theorem mem_joinSep {c : Char} {sep : Char} : ∀ {ls : List Str},
    c ∈ joinSep sep ls → c = sep ∨ ∃ l ∈ ls, c ∈ l := by
  intro ls
  induction ls with
  | nil => intro h; simp [joinSep] at h
  | cons s ss ih =>
    intro h
    cases ss with
    | nil =>
      simp only [joinSep] at h
      exact Or.inr ⟨s, by simp, h⟩
    | cons t ts =>
      simp only [joinSep] at h
      rcases List.mem_append.mp h with h | h
      · exact Or.inr ⟨s, by simp, h⟩
      · rcases List.mem_cons.mp h with h | h
        · exact Or.inl h
        · rcases ih h with h | ⟨l, hl, hcl⟩
          · exact Or.inl h
          · exact Or.inr ⟨l, List.mem_cons_of_mem _ hl, hcl⟩

theorem key_urlencode_no_qmark {k : Str} {c : Char} (h : c ∈ key_urlencode k) :
    c ≠ '?' := by
  unfold key_urlencode at h
  rcases mem_joinSep h with h | ⟨l, hl, hcl⟩
  · rw [h]; decide
  · obtain ⟨seg, _, hseg⟩ := List.mem_map.mp hl
    exact (mem_urlencode (hseg ▸ hcl)).2

/-! ### The Date slot of the canonical string -/

theorem requestType_toStr_no_newline (rt : RequestType) : '\n' ∉ rt.toStr := by
  cases rt <;> decide

theorem dateSlot_canonicalString {method contentMd5 contentType date : Str}
    (ossLines resource : Str)
    (hm : '\n' ∉ method) (h5 : '\n' ∉ contentMd5) (hct : '\n' ∉ contentType)
    (hd : '\n' ∉ date) :
    dateSlot (canonicalString method contentMd5 contentType date ossLines resource) =
      date := by
  unfold dateSlot canonicalString
  have hsplit : ∀ (xs rest : Str), '\n' ∉ xs →
      (xs ++ '\n' :: rest).splitOn '\n' = xs :: rest.splitOn '\n' := by
    intro xs rest hxs
    show (xs ++ '\n' :: rest).splitOnP (· == '\n') = xs :: rest.splitOnP (· == '\n')
    refine List.splitOnP_first _ xs ?_ '\n' (by decide) rest
    intro x hx
    simp only [beq_iff_eq]
    intro hxe
    exact hxs (hxe ▸ hx)
  rw [hsplit _ _ hm, hsplit _ _ h5, hsplit _ _ hct, hsplit _ _ hd]
  rfl

/-! ### `replaceFirst` on strings without the pattern -/

theorem mem_of_isPrefixOf {l1 l2 : Str} (h : l1.isPrefixOf l2 = true) {c : Char}
    (hc : c ∈ l1) : c ∈ l2 := by
  induction l1 generalizing l2 with
  | nil => simp at hc
  | cons a as ih =>
    cases l2 with
    | nil => simp [List.isPrefixOf] at h
    | cons b bs =>
      simp only [List.isPrefixOf, Bool.and_eq_true, beq_iff_eq] at h
      rcases List.mem_cons.mp hc with hc | hc
      · exact List.mem_cons.mpr (Or.inl (hc.trans h.1))
      · exact List.mem_cons_of_mem _ (ih h.2 hc)

theorem replaceFirst_of_not_mem {pat s : Str} {c : Char} (hc : c ∈ pat)
    (hs : c ∉ s) : replaceFirst pat s = s := by
  induction s with
  | nil => rfl
  | cons a as ih =>
    unfold replaceFirst
    rw [if_neg, ih fun hmem => hs (List.mem_cons_of_mem _ hmem)]
    intro hpre
    exact hs (mem_of_isPrefixOf hpre hc)

/-! ### Claim theorems -/

/-- C7: `format_key` is idempotent and its result always starts with `/`:
it returns an already-rooted key unchanged and prepends `/` exactly when the
key does not already start with `/` (here `k` is an arbitrary key and `t` an
arbitrary key that does not start with `/`). -/
theorem c7_format_key_idempotent (k t : Str)
    (hnr : "/".data.isPrefixOf t = false) :
    format_key (format_key k) = format_key k
    ∧ (∃ u, format_key k = '/' :: u)
    ∧ format_key ('/' :: k) = '/' :: k
    ∧ format_key t = '/' :: t := by
  refine ⟨format_key_idem_aux k, format_key_head k, ?_, ?_⟩
  · unfold format_key
    rw [if_pos ((slash_isPrefixOf_iff _).mpr ⟨k, rfl⟩)]
  · unfold format_key
    rw [if_neg (by simp [hnr])]

/-- Witness for C7 at the keys `"/x"` (rooted) and `"a"` (unrooted). -/
theorem c7_format_key_idempotent_witness :
    ("/".data.isPrefixOf ("a".data) = false)
    ∧ (format_key (format_key ("/x".data)) = format_key ("/x".data)
      ∧ (∃ u, format_key ("/x".data) = '/' :: u)
      ∧ format_key ('/' :: "/x".data) = '/' :: "/x".data
      ∧ format_key ("a".data) = '/' :: "a".data) :=
  ⟨by decide, c7_format_key_idempotent ("/x".data) ("a".data) (by decide)⟩

/-- C8: `key_urlencode` percent-encodes each `/`-delimited segment of the key
independently and leaves every `/` separator literal: splitting its output on
`/` returns exactly the encodings of the input's segments, the segment count
is preserved, and the spec's round-trip example holds (`/a/b c.txt` with a
space encodes to `/a/b%20c.txt`). -/
theorem c8_key_urlencode_segments (k : Str) :
    (key_urlencode k).splitOn '/' = (k.splitOn '/').map urlencode
    ∧ ((key_urlencode k).splitOn '/').length = (k.splitOn '/').length
    ∧ key_urlencode ("/a/b c.txt".data) = "/a/b%20c.txt".data := by
  refine ⟨splitOn_key_urlencode k, ?_, by decide⟩
  rw [splitOn_key_urlencode k, List.length_map]

/-- C3: the parameter names in the query string produced by `sign_url` are
strictly ascending in the lexicographic (code-point, equivalently UTF-8
byte-wise) order, for every input parameter set, and `sign_url` serializes
exactly that sorted list after the `?`. -/
theorem c3_sorted_param_names (mac : Str → Str → Str) (oss : OSS) (key : Str)
    (build : RequestBuilder) (nowUtc tzOffset : Int) :
    List.Pairwise keyLT (signUrlParams mac oss key build nowUtc tzOffset)
    ∧ sign_url mac oss key build nowUtc tzOffset =
        key_urlencode (format_key key) ++ '?' ::
          serializeParams (signUrlParams mac oss key build nowUtc tzOffset) :=
  ⟨pairwise_keyLT_sortPairs
      (nodup_keys_filter_deny (nodup_keys_signUrlEntries mac oss key build nowUtc tzOffset)),
    rfl⟩

/-- C10: `sign_url` returns only a host-relative path-plus-query: its output
is the percent-encoded formatted key, one `?`, and the serialized sorted
query string; it starts with `/` (so carries no scheme and no host), the
first `?` of the output is exactly the separator after the encoded path, and
the full URLs arise from it by prepending `{bucket}.{endpoint}` or the CDN
host. -/
theorem c10_host_relative (mac : Str → Str → Str) (oss : OSS) (key : Str)
    (build : RequestBuilder) (nowUtc tzOffset : Int) (cdn : Str) :
    sign_url mac oss key build nowUtc tzOffset =
      key_urlencode (format_key key) ++ '?' ::
        serializeParams (signUrlParams mac oss key build nowUtc tzOffset)
    ∧ (sign_url mac oss key build nowUtc tzOffset).head? = some '/'
    ∧ (sign_url mac oss key build nowUtc tzOffset).splitOn '?' =
        key_urlencode (format_key key) ::
          (serializeParams (signUrlParams mac oss key build nowUtc tzOffset)).splitOn '?'
    ∧ sign_url_with_endpoint mac oss key build nowUtc tzOffset =
        oss.bucket ++ '.' :: oss.endpoint ++ sign_url mac oss key build nowUtc tzOffset
    ∧ sign_url_with_cdn mac oss cdn key build nowUtc tzOffset =
        cdn ++ sign_url mac oss key build nowUtc tzOffset := by
  obtain ⟨t, ht⟩ := format_key_head key
  obtain ⟨u, hu⟩ := key_urlencode_slash_head t
  refine ⟨rfl, ?_, ?_, rfl, rfl⟩
  · show (key_urlencode (format_key key) ++ '?' ::
      serializeParams (signUrlParams mac oss key build nowUtc tzOffset)).head? = some '/'
    rw [ht, hu]
    rfl
  · show (key_urlencode (format_key key) ++ '?' ::
      serializeParams (signUrlParams mac oss key build nowUtc tzOffset)).splitOnP (· == '?') =
        key_urlencode (format_key key) ::
          (serializeParams (signUrlParams mac oss key build nowUtc tzOffset)).splitOnP (· == '?')
    refine List.splitOnP_first _ _ ?_ '?' (by decide) _
    intro x hx
    simp only [beq_iff_eq]
    exact key_urlencode_no_qmark hx

/-- C1: for every builder `build`, the name set of the query string produced
by `sign_url` is exactly `{Expires, OSSAccessKeyId, Signature}` united with
the caller's parameter names minus `{x-oss-ac-source-ip}`, with no duplicate
names, and the denylisted name never appears; moreover, for every builder
`build2` carrying a caller parameter `(k, v)` (with `k` not denylisted), the
caller's (percent-encoded) value is the one that appears in the output —
last write wins, also when `k` is one of the reserved names. -/
theorem c1_query_param_names (mac : Str → Str → Str) (oss : OSS) (key : Str)
    (build : RequestBuilder) (nowUtc tzOffset : Int)
    (build2 : RequestBuilder) (k v : Str)
    (hn : (build2.parameters.map Prod.fst).Nodup)
    (hkv : (k, v) ∈ build2.parameters)
    (hkd : k ≠ denyKey) :
    (∀ n : Str, n ∈ (signUrlParams mac oss key build nowUtc tzOffset).map Prod.fst ↔
      (n = expiresKey ∨ n = accessIdKey ∨ n = signatureKey ∨
        n ∈ build.parameters.map Prod.fst) ∧ n ≠ denyKey)
    ∧ ((signUrlParams mac oss key build nowUtc tzOffset).map Prod.fst).Nodup
    ∧ denyKey ∉ (signUrlParams mac oss key build nowUtc tzOffset).map Prod.fst
    ∧ getParam k (signUrlParams mac oss key build2 nowUtc tzOffset) =
        some (urlencode v) := by
  refine ⟨fun n => mem_keys_signUrlParams mac oss key build nowUtc tzOffset,
    nodup_keys_signUrlParams mac oss key build nowUtc tzOffset, ?_, ?_⟩
  · intro hmem
    exact ((mem_keys_signUrlParams mac oss key build nowUtc tzOffset).mp hmem).2 rfl
  · rw [getParam_signUrlParams mac oss key build2 nowUtc tzOffset hkd]
    unfold signUrlEntries
    exact getParam_foldl_mem hn hkv _

/-- Witness for C1 at the parameterless builder (name-set invariant) and at a
builder whose caller parameters are `[("Signature", "v")]` — a reserved-name
collision. -/
theorem c1_query_param_names_witness :
    ((buildSig.parameters.map Prod.fst).Nodup
    ∧ (signatureKey, "v".data) ∈ buildSig.parameters
    ∧ signatureKey ≠ denyKey)
    ∧ ((∀ n : Str, n ∈ (signUrlParams mac0 oss0 key0 build0 3 5).map Prod.fst ↔
        (n = expiresKey ∨ n = accessIdKey ∨ n = signatureKey ∨
          n ∈ build0.parameters.map Prod.fst) ∧ n ≠ denyKey)
      ∧ ((signUrlParams mac0 oss0 key0 build0 3 5).map Prod.fst).Nodup
      ∧ denyKey ∉ (signUrlParams mac0 oss0 key0 build0 3 5).map Prod.fst
      ∧ getParam signatureKey (signUrlParams mac0 oss0 key0 buildSig 3 5) =
          some (urlencode ("v".data))) :=
  ⟨⟨by decide, by decide, by decide⟩,
    c1_query_param_names mac0 oss0 key0 build0 3 5 buildSig signatureKey ("v".data)
      (by decide) (by decide) (by decide)⟩

/-- C2: the output of `sign_url` does not depend on the iteration order of
the `query_parameters` `HashMap`: any permutation `iter` of the map's entries
yields exactly `sign_url`'s output, hence repeated invocations with fixed
credential, endpoint, bucket, operation descriptor and timestamp are
byte-identical, and likewise for `sign_url_with_endpoint`,
`sign_url_with_cdn` and `build_request`. -/
theorem c2_deterministic (mac : Str → Str → Str) (oss : OSS) (key : Str)
    (build : RequestBuilder) (nowUtc tzOffset : Int) (iter : List (Str × Str))
    (cdn : Str) (method2 : RequestType) (key2 : Str) (hdrs : List (Str × Str))
    (hperm : iter.Perm (signUrlEntries mac oss key build nowUtc tzOffset)) :
    signUrlOfIter (format_key key) iter = sign_url mac oss key build nowUtc tzOffset
    ∧ oss.bucket ++ '.' :: oss.endpoint ++ signUrlOfIter (format_key key) iter =
        sign_url_with_endpoint mac oss key build nowUtc tzOffset
    ∧ cdn ++ signUrlOfIter (format_key key) iter =
        sign_url_with_cdn mac oss cdn key build nowUtc tzOffset
    ∧ build_request oss method2 key2 hdrs = build_request oss method2 key2 hdrs := by
  have hfil : (iter.filter (fun p => decide (p.1 ≠ denyKey))).Perm
      ((signUrlEntries mac oss key build nowUtc tzOffset).filter
        (fun p => decide (p.1 ≠ denyKey))) :=
    hperm.filter _
  have hnod : ((iter.filter (fun p => decide (p.1 ≠ denyKey))).map Prod.fst).Nodup :=
    ((hfil.map Prod.fst).nodup_iff).mpr
      (nodup_keys_filter_deny (nodup_keys_signUrlEntries mac oss key build nowUtc tzOffset))
  have core : signUrlOfIter (format_key key) iter =
      sign_url mac oss key build nowUtc tzOffset := by
    unfold sign_url signUrlOfIter
    rw [sortPairs_eq_of_perm hfil hnod]
  exact ⟨core, by rw [core]; rfl, by rw [core]; rfl, rfl⟩

/-- Witness for C2: the reversed entry list is a permutation of the map's
entries and yields the identical signed URL. -/
theorem c2_deterministic_witness :
    (((signUrlEntries mac0 oss0 key0 build0 7 0).reverse).Perm
      (signUrlEntries mac0 oss0 key0 build0 7 0))
    ∧ (signUrlOfIter (format_key key0) ((signUrlEntries mac0 oss0 key0 build0 7 0).reverse) =
        sign_url mac0 oss0 key0 build0 7 0
      ∧ oss0.bucket ++ '.' :: oss0.endpoint ++
          signUrlOfIter (format_key key0) ((signUrlEntries mac0 oss0 key0 build0 7 0).reverse) =
          sign_url_with_endpoint mac0 oss0 key0 build0 7 0
      ∧ "http://cdn.example.com".data ++
          signUrlOfIter (format_key key0) ((signUrlEntries mac0 oss0 key0 build0 7 0).reverse) =
          sign_url_with_cdn mac0 oss0 ("http://cdn.example.com".data) key0 build0 7 0
      ∧ build_request oss0 RequestType.GET key0 [] =
          build_request oss0 RequestType.GET key0 []) :=
  ⟨by decide,
    c2_deterministic mac0 oss0 key0 build0 7 0
      ((signUrlEntries mac0 oss0 key0 build0 7 0).reverse)
      ("http://cdn.example.com".data) RequestType.GET key0 [] (by decide)⟩

/-- C4 counterexample: when the caller supplies a query parameter literally
named `Expires`, its value overrides the computed timestamp (last write
wins), so the `Expires` value embedded in the query string (here `"0"`)
differs from the value in the Date slot of the signed canonical string
(here `"60"`). -/
theorem c4_counterexample :
    getParam expiresKey (signUrlParams mac0 oss0 key0 buildExp 0 0) = some ("0".data)
    ∧ dateSlot (signUrlCanonical oss0 key0 buildExp 0 0) = "60".data
    ∧ ("0".data : Str) ≠ "60".data := by decide

/-- C4 (amended): provided no caller parameter is named `Expires` (and the
content type contains no newline), the `Expires` value embedded in the output
query string is byte-identical to the value in the Date slot of the canonical
string that was signed: both are the single timestamp string computed once
from the clock captured at the start of the call. -/
theorem c4_temporal_coupling (mac : Str → Str → Str) (oss : OSS) (key : Str)
    (build : RequestBuilder) (nowUtc tzOffset : Int)
    (hne : expiresKey ∉ build.parameters.map Prod.fst)
    (hct : '\n' ∉ build.content_type) :
    getParam expiresKey (signUrlParams mac oss key build nowUtc tzOffset) =
      some (intToStr (urlExpiresTs build nowUtc tzOffset))
    ∧ dateSlot (signUrlCanonical oss key build nowUtc tzOffset) =
        intToStr (urlExpiresTs build nowUtc tzOffset) := by
  constructor
  · rw [getParam_signUrlParams mac oss key build nowUtc tzOffset (by decide)]
    exact getParam_signUrlEntries_expires mac oss key build nowUtc tzOffset hne
  · unfold signUrlCanonical
    refine dateSlot_canonicalString _ _ (requestType_toStr_no_newline _) (by simp)
      hct ?_
    intro hmem
    exact mem_intToStr_ne_newline hmem rfl

/-- Witness for C4 at the parameterless builder and timestamp 1700000000. -/
theorem c4_temporal_coupling_witness :
    (expiresKey ∉ build0.parameters.map Prod.fst ∧ '\n' ∉ build0.content_type)
    ∧ (getParam expiresKey (signUrlParams mac0 oss0 key0 build0 1700000000 0) =
        some (intToStr (urlExpiresTs build0 1700000000 0))
      ∧ dateSlot (signUrlCanonical oss0 key0 build0 1700000000 0) =
          intToStr (urlExpiresTs build0 1700000000 0)) :=
  ⟨⟨by decide, by decide⟩,
    c4_temporal_coupling mac0 oss0 key0 build0 1700000000 0 (by decide) (by decide)⟩

/-- C5: evaluation at the failing input.  `sign_url` computes the expiration
with `Local::now().naive_local().timestamp()`, which reads the local
wall-clock as if it were UTC: with real Unix time 1700000000, a local UTC
offset of +08:00 (28800 s) and `expire_seconds = 60`, the emitted `Expires`
is `1700028860`, while `now + expire_seconds` as a Unix timestamp is
`1700000060`. -/
theorem c5_expires_timezone_bug :
    getParam expiresKey (signUrlParams mac0 oss0 key0 build0 1700000000 28800) =
      some ("1700028860".data)
    ∧ intToStr (1700000000 + 60) = "1700000060".data
    ∧ ("1700028860".data : Str) ≠ "1700000060".data := by decide

/-- C6 counterexample: with the endpoint `https://oss.example.com` (which
does begin with `https`), the URL produced by `sign_url_with_endpoint`
begins with `b.https:`, not with the scheme `https://`. -/
theorem c6_counterexample :
    (sign_url_with_endpoint mac0 oss1 key0 build0 0 0).take 8 = "b.https:".data
    ∧ ("b.https:".data : Str) ≠ "https://".data
    ∧ "https".data.isPrefixOf oss1.endpoint = true := by decide

/-- C6 (amended): `sign_url_with_endpoint` performs no scheme handling at
all — it returns `{bucket}.{endpoint}{sign_url output}` verbatim; the scheme
inference and scheme-prefix stripping described by the claim are implemented
only by `format_host` (used by `build_request`), which yields
`https://{bucket}.{endpoint-minus-scheme}/{key}` when the endpoint begins
with `https://` and `http://{bucket}.{endpoint}/{key}` when the endpoint
carries no scheme (here: does not begin with `https` and contains no `:`). -/
theorem c6_host_construction (mac : Str → Str → Str) (oss : OSS) (key : Str)
    (build : RequestBuilder) (nowUtc tzOffset : Int) (host : Str)
    (oss2 : OSS) (key2 : Str)
    (h1 : oss.endpoint = "https://".data ++ host)
    (h2 : "https".data.isPrefixOf oss2.endpoint = false)
    (h3 : ':' ∉ oss2.endpoint) :
    sign_url_with_endpoint mac oss key build nowUtc tzOffset =
      oss.bucket ++ '.' :: oss.endpoint ++ sign_url mac oss key build nowUtc tzOffset
    ∧ format_host oss oss.bucket key =
        "https://".data ++ oss.bucket ++ '.' :: host ++ '/' :: key
    ∧ format_host oss2 oss2.bucket key2 =
        "http://".data ++ oss2.bucket ++ '.' :: oss2.endpoint ++ '/' :: key2 := by
  have hpre : "https".data.isPrefixOf oss.endpoint = true := by
    rw [h1, show ("https://".data : Str) = "https".data ++ "://".data from rfl,
      List.append_assoc]
    exact isPrefixOf_append_self _ _
  refine ⟨rfl, ?_, ?_⟩
  · unfold format_host
    rw [if_pos hpre, h1, replaceFirst_append _ _ (by decide)]
  · unfold format_host
    rw [if_neg (by simp [h2]),
      replaceFirst_of_not_mem (show ':' ∈ "http://".data by decide) h3]

/-- Witness for C6 at the `https://oss.example.com` (scheme-carrying) and
`oss-cn-test.example.com` (scheme-less) endpoints. -/
theorem c6_host_construction_witness :
    (oss1.endpoint = "https://".data ++ "oss.example.com".data
    ∧ "https".data.isPrefixOf oss0.endpoint = false
    ∧ ':' ∉ oss0.endpoint)
    ∧ (sign_url_with_endpoint mac0 oss1 key0 build0 0 0 =
        oss1.bucket ++ '.' :: oss1.endpoint ++ sign_url mac0 oss1 key0 build0 0 0
      ∧ format_host oss1 oss1.bucket key0 =
          "https://".data ++ oss1.bucket ++ '.' :: "oss.example.com".data ++ '/' :: key0
      ∧ format_host oss0 oss0.bucket key0 =
          "http://".data ++ oss0.bucket ++ '.' :: oss0.endpoint ++ '/' :: key0) :=
  ⟨⟨by decide, by decide, by decide⟩,
    c6_host_construction mac0 oss1 key0 build0 0 0 ("oss.example.com".data) oss0 key0
      (by decide) (by decide) (by decide)⟩

/-- C9: evaluation at the failing input.  `build_request` (src/oss.rs:193-199)
returns `Ok(("".to_string(), HeaderMap::new()))` — an empty URL and an empty
header map — so the returned headers contain neither an `Authorization` entry
of the form `OSS {key_id}:{base64_signature}` nor a `Date` entry (the `Date`
insertion in the source is commented out). -/
theorem c9_build_request_stub :
    build_request oss0 RequestType.GET key0 [("Content-Type".data, "text/plain".data)] =
      Except.ok (([] : Str), ([] : List (Str × Str)))
    ∧ getParam ("Authorization".data) [] = none
    ∧ getParam ("Date".data) [] = none :=
  ⟨rfl, rfl, rfl⟩

end AliyunOss
